import Mathlib

/-!
Verification of the Trust-Risk-Discovery engine (`src/streamlit_app.py`).

The Python source is shallowly embedded below.  Strings are modelled as
`List Char` wherever character-level work happens (Python's `str` is a
sequence of code points, as is `String.data`).  The parts of Python's
standard library that the source calls (`urllib.parse.urlparse`,
`urljoin`, `str.strip`, `str.lower`, `str.count`, `re.search` on the
concrete keyword patterns appearing in the source) are embedded from the
CPython 3.11 implementation of `urllib/parse.py` and the documented
behaviour of the string methods.  `str.lower` and the regex word
boundary `\b` are modelled for the ASCII range (the keyword tables in
the source are all ASCII).
-/

namespace QARadar

/-! ### Character helpers (ASCII range of `str.lower`, `\w`, whitespace) -/

/-- ASCII uppercase letter test, by code point (`A`-`Z`). -/
def isUpperA (c : Char) : Bool := 65 ≤ c.toNat && c.toNat ≤ 90

/-- ASCII lowercase letter test, by code point (`a`-`z`). -/
def isLowerA (c : Char) : Bool := 97 ≤ c.toNat && c.toNat ≤ 122

/-- ASCII digit test, by code point (`0`-`9`). -/
def isDigitA (c : Char) : Bool := 48 ≤ c.toNat && c.toNat ≤ 57

/-- ASCII letter test (`str.isascii() and str.isalpha()` on one char). -/
def isAlphaA (c : Char) : Bool := isUpperA c || isLowerA c

/-- `str.lower` on one character, ASCII range. -/
def lowerChar (c : Char) : Char :=
  if 65 ≤ c.toNat ∧ c.toNat ≤ 90 then Char.ofNat (c.toNat + 32) else c

/-- `str.lower` on a string (as a list of code points). -/
def lowerL (l : List Char) : List Char := l.map lowerChar

/-- Python whitespace stripped by `str.strip()` (ASCII part). -/
def pyWs (c : Char) : Bool :=
  c == ' ' || c == '\t' || c == '\n' || c == '\r' || c == '\x0b' || c == '\x0c'

/-- `str.strip()`. -/
def pyStripL (l : List Char) : List Char :=
  ((l.dropWhile pyWs).reverse.dropWhile pyWs).reverse

/-- `str.strip()` at `String` level. -/
def pyStrip (s : String) : String := String.mk (pyStripL s.data)

/-- Substring containment, Python's `sub in s`. -/
def infixOfB (pat : List Char) : List Char → Bool
  | [] => pat.isEmpty
  | c :: rest => pat.isPrefixOf (c :: rest) || infixOfB pat rest

/-- Non-overlapping occurrence count of `"<h1"`, Python's
`s.count("<h1")` specialised to the pattern used by the source. -/
def countH1 : List Char → Nat
  | '<' :: 'h' :: '1' :: rest => 1 + countH1 rest
  | _ :: rest => countH1 rest
  | [] => 0

/-- Word character of the regex `\b` boundary (ASCII range of `\w`). -/
def isWordChar (c : Char) : Bool := isAlphaA c || isDigitA c || c == '_'

/-- Case-insensitive match of keyword `kw` at the head of `l`, with a
`\b` boundary on both sides; `prevIsWord` tells whether the character
just before `l` was a word character.  (All keywords in the source start
and end with word characters, for which `\b` means exactly this.) -/
def matchesAtHead (kw l : List Char) (prevIsWord : Bool) : Bool :=
  !prevIsWord && (lowerL kw).isPrefixOf (lowerL l) &&
    (match (l.drop kw.length).head? with
     | some c => !isWordChar c
     | none => true)

/-- Scan of `re.search` for one keyword with `\b` boundaries,
case-insensitively, over every position of `l`. -/
def kwSearch (kw : List Char) : List Char → Bool → Bool
  | [], _ => false
  | c :: rest, prevIsWord =>
    matchesAtHead kw (c :: rest) prevIsWord || kwSearch kw rest (isWordChar c)

/-- `re.search(r"\b(kw1|kw2|...)\b", s, re.IGNORECASE)` for a keyword
alternation, as used by the detector's patterns. -/
def reWordSearch (kws : List String) (s : String) : Bool :=
  kws.any (fun k => kwSearch k.data s.data false)

/-- Code-point lexicographic comparison, Python's `str.__le__`. -/
def lexLeB : List Char → List Char → Bool
  | [], _ => true
  | _ :: _, [] => false
  | a :: as, b :: bs =>
    if a.toNat < b.toNat then true
    else if b.toNat < a.toNat then false
    else lexLeB as bs

/-- Order used by Python's `sorted` on strings. -/
def strLe (a b : String) : Prop := lexLeB a.data b.data = true

instance : DecidableRel strLe := fun a b => by unfold strLe; infer_instance

/-! ### Embedding of CPython 3.11 `urllib/parse.py` -/

/-- `_UNSAFE_URL_BYTES_TO_REMOVE` filtering done by `urlsplit`: a
character is safe when it is not tab (9), CR (13) or LF (10). -/
def safeChar (c : Char) : Bool :=
  decide (c.toNat ≠ 9 ∧ c.toNat ≠ 13 ∧ c.toNat ≠ 10)

/-- Removal of unsafe bytes (`url.replace(b, "")` for tab, CR, LF). -/
def removeUnsafe (l : List Char) : List Char := l.filter safeChar

/-- Characters of `scheme_chars`: ASCII letters, digits, `+` (43),
`-` (45) and `.` (46). -/
def isSchemeChar (c : Char) : Bool :=
  isAlphaA c || isDigitA c ||
    decide (c.toNat = 43) || decide (c.toNat = 45) || decide (c.toNat = 46)

/-- Split at the first occurrence of `c` (Python `s.split(c, 1)` when
`c` occurs), returning `none` when `c` does not occur. -/
def splitFirst (c : Char) : List Char → Option (List Char × List Char)
  | [] => none
  | a :: l =>
    if a == c then some ([], l)
    else (splitFirst c l).map (fun p => (a :: p.1, p.2))

/-- The scheme detection step of `urlsplit`: a scheme is split off when
the first `:` is at a positive index, the first character is an ASCII
letter and everything before the `:` is in `scheme_chars`. -/
def schemeSplit (l dflt : List Char) : List Char × List Char :=
  match l.findIdx? (fun c => c == ':') with
  | some i =>
    if (decide (0 < i) &&
        (match l.head? with | some c => isAlphaA c | none => false) &&
        (l.take i).all isSchemeChar) = true
    then (lowerL (l.take i), l.drop (i + 1))
    else (dflt, l)
  | none => (dflt, l)

/-- Delimiters ending the netloc in `_splitnetloc`: `/` (47), `?` (63)
and `#` (35). -/
def netlocStop (c : Char) : Bool :=
  decide (c.toNat = 47 ∨ c.toNat = 63 ∨ c.toNat = 35)

/-- A scheme token as produced by a successful scheme match of
`urlsplit`: non-empty, leading ASCII letter, scheme characters only,
already lowercased. -/
def GoodScheme (s : List Char) : Prop :=
  s ≠ [] ∧ (s.head?.map isAlphaA).getD false = true ∧
    (∀ c ∈ s, isSchemeChar c = true) ∧ (∀ c ∈ s, isUpperA c = false)

instance : DecidablePred GoodScheme := fun s => by
  unfold GoodScheme
  infer_instance

/-- Result record of `urlsplit`. -/
structure SplitUrl where
  scheme : List Char
  netloc : List Char
  path : List Char
  query : List Char
  fragment : List Char
deriving DecidableEq

/-- The netloc/path/query/fragment stage of `urlsplit`, applied to the
url after the scheme has been removed; returns
`(netloc, path, query, fragment)`. -/
def splitAfterScheme (url : List Char) : List Char × List Char × List Char × List Char :=
  let nl :=
    if url.take 2 = ['/', '/'] then
      ((url.drop 2).takeWhile (fun c => !netlocStop c),
       (url.drop 2).dropWhile (fun c => !netlocStop c))
    else ([], url)
  let fr := match splitFirst '#' nl.2 with
    | some p => p
    | none => (nl.2, [])
  let qu := match splitFirst '?' fr.1 with
    | some p => p
    | none => (fr.1, [])
  (nl.1, qu.1, qu.2, fr.2)

/-- `urllib.parse.urlsplit(url, scheme, allow_fragments=True)`. -/
def urlsplitL (url0 : List Char) (dfltScheme : List Char) : SplitUrl :=
  let sp := schemeSplit (removeUnsafe url0) (removeUnsafe dfltScheme)
  let r := splitAfterScheme sp.2
  ⟨sp.1, r.1, r.2.1, r.2.2.1, r.2.2.2⟩

/-- `uses_params` (schemes whose path may carry `;params`). -/
def uses_params : List (List Char) :=
  (["", "ftp", "hdl", "prospero", "http", "imap", "https", "shttp",
    "rtsp", "rtspu", "sip", "sips", "mms", "sftp", "tel"]).map String.data

/-- `uses_relative`. -/
def uses_relative : List (List Char) :=
  (["", "ftp", "http", "gopher", "nntp", "imap", "wais", "file", "https",
    "shttp", "mms", "prospero", "rtsp", "rtspu", "sftp", "svn", "svn+ssh",
    "ws", "wss"]).map String.data

/-- `uses_netloc`. -/
def uses_netloc : List (List Char) :=
  (["", "ftp", "http", "gopher", "nntp", "telnet", "imap", "wais", "file",
    "mms", "https", "shttp", "snews", "prospero", "rtsp", "rtspu", "rsync",
    "svn", "svn+ssh", "sftp", "nfs", "git", "git+ssh", "ws", "wss"]).map String.data

/-- First index of `c` at or after `start` (`s.find(c, start)`). -/
def findIdxFrom (c : Char) (start : Nat) (l : List Char) : Option Nat :=
  ((l.drop start).findIdx? (fun x => x == c)).map (· + start)

/-- Last index of `c` (`s.rfind(c)`), when `c` occurs. -/
def rfindIdx? (c : Char) (l : List Char) : Option Nat :=
  (l.reverse.findIdx? (fun x => x == c)).map (fun j => l.length - 1 - j)

/-- `_splitparams` (as reachable from `urlparse`, i.e. with `;` in the
url). -/
def splitparamsL (url : List Char) : List Char × List Char :=
  let i? : Option Nat :=
    if '/' ∈ url then
      match rfindIdx? '/' url with
      | some s => findIdxFrom ';' s url
      | none => none
    else url.findIdx? (fun x => x == ';')
  match i? with
  | none => (url, [])
  | some i => (url.take i, url.drop (i + 1))

/-- Result record of `urlparse` (path split from `;params`). -/
structure ParseUrl where
  scheme : List Char
  netloc : List Char
  path : List Char
  params : List Char
  query : List Char
  fragment : List Char
deriving DecidableEq

/-- `urllib.parse.urlparse(url, scheme, allow_fragments=True)`. -/
def urlparseL (url : List Char) (dflt : List Char) : ParseUrl :=
  let s := urlsplitL url dflt
  if s.scheme ∈ uses_params ∧ ';' ∈ s.path then
    let pp := splitparamsL s.path
    ⟨s.scheme, s.netloc, pp.1, pp.2, s.query, s.fragment⟩
  else ⟨s.scheme, s.netloc, s.path, [], s.query, s.fragment⟩

/-- `urllib.parse.urlunsplit`. -/
def urlunsplitL (scheme netloc url query fragment : List Char) : List Char :=
  let url :=
    if netloc ≠ [] ∨ (scheme ≠ [] ∧ scheme ∈ uses_netloc ∧ url.take 2 ≠ ['/', '/']) then
      '/' :: '/' :: (netloc ++ (if url ≠ [] ∧ url.head? ≠ some '/' then '/' :: url else url))
    else url
  let url := if scheme ≠ [] then scheme ++ ':' :: url else url
  let url := if query ≠ [] then url ++ '?' :: query else url
  if fragment ≠ [] then url ++ '#' :: fragment else url

/-- `urllib.parse.urlunparse`. -/
def urlunparseL (p : ParseUrl) : List Char :=
  urlunsplitL p.scheme p.netloc
    (if p.params ≠ [] then p.path ++ ';' :: p.params else p.path) p.query p.fragment

/-- The `..`/`.` segment resolution loop of `urljoin`. -/
def resolveSegs (acc : List (List Char)) : List (List Char) → List (List Char)
  | [] => acc
  | s :: rest =>
    if s = ['.', '.'] then resolveSegs acc.dropLast rest
    else if s = ['.'] then resolveSegs acc rest
    else resolveSegs (acc ++ [s]) rest

/-- `segments[1:-1] = filter(None, segments[1:-1])`. -/
def filterMiddle (segs : List (List Char)) : List (List Char) :=
  match segs with
  | [] => []
  | a :: rest =>
    match rest.getLast? with
    | none => [a]
    | some last => a :: ((rest.dropLast.filter (fun s => !s.isEmpty)) ++ [last])

/-- The relative-path merge of `urljoin` (`base_parts`/`segments`/
`resolved_path` block), producing `'/'.join(resolved_path) or '/'`. -/
def mergePaths (bpath rpath : List Char) : List Char :=
  let base_parts := bpath.splitOn '/'
  let base_parts := if base_parts.getLast? ≠ some [] then base_parts.dropLast else base_parts
  let segments := if rpath.head? = some '/' then rpath.splitOn '/'
    else filterMiddle (base_parts ++ rpath.splitOn '/')
  let resolved := resolveSegs [] segments
  let resolved :=
    if segments.getLast? = some ['.'] ∨ segments.getLast? = some ['.', '.'] then
      resolved ++ [[]]
    else resolved
  let joined := List.intercalate ['/'] resolved
  if joined = [] then ['/'] else joined

/-- `urllib.parse.urljoin(base, url)` (CPython 3.11). -/
def urljoinL (base url : List Char) : List Char :=
  if base = [] then url
  else if url = [] then base
  else
    let b := urlparseL base []
    let r := urlparseL url b.scheme
    if r.scheme ≠ b.scheme ∨ r.scheme ∉ uses_relative then url
    else if r.scheme ∈ uses_netloc ∧ r.netloc ≠ [] then
      urlunparseL ⟨r.scheme, r.netloc, r.path, r.params, r.query, r.fragment⟩
    else
      let netloc := if r.scheme ∈ uses_netloc then
          (if r.netloc ≠ [] then r.netloc else b.netloc)
        else r.netloc
      if r.path = [] ∧ r.params = [] then
        urlunparseL ⟨r.scheme, netloc, b.path, b.params,
          (if r.query = [] then b.query else r.query), r.fragment⟩
      else
        urlunparseL ⟨r.scheme, netloc, mergePaths b.path r.path,
          r.params, r.query, r.fragment⟩

/-! ### The application functions of `src/streamlit_app.py` -/

/-- `normalize_url` (lines 48–54). -/
def normalize_url (raw : String) : String :=
  let raw := pyStrip raw
  if raw = "" then ""
  else if "http".data.isPrefixOf raw.data then raw
  else "https://" ++ raw

/-- Apostrophe (used inside source string literals). -/
def apos : Char := Char.ofNat 39

/-- Chunk of signal record text: confidence levels are strings. -/
structure Signal where
  signal : String
  evidence_type : String
  why_it_can_matter : String
  confidence : String
deriving DecidableEq

/-- Keyword set of the classifier's support/legal branch (line 111). -/
def supportKws : List String :=
  ["help", "support", "contact", "faq", "returns", "refund", "shipping", "privacy", "terms"]

/-- Keyword set of the classifier's transaction branch (line 115). -/
def transactionKws : List String :=
  ["checkout", "cart", "pay", "pricing", "subscribe", "billing", "plans", "order"]

/-- The classifier's decision on a already-extracted URL path
(`classify_trust_domain` after `urlparse(url).path`). -/
def classifyPath (path : List Char) : String :=
  if supportKws.any (fun k => infixOfB k.data (lowerL path)) then "Support Reliability"
  else if transactionKws.any (fun k => infixOfB k.data (lowerL path)) then "Transaction Safety"
  else "Brand Credibility"

/-- `classify_trust_domain` (lines 106–118). -/
def classify_trust_domain (url : String) : String :=
  classifyPath (urlparseL url.data []).path

/-- Keywords of `\b(beta|early access|preview)\b`. -/
def betaKws : List String := ["beta", "early access", "preview"]

/-- Keywords of `\b(world'?s first|best|guarantee|risk[- ]free|perfect)\b`. -/
def claimsKws : List String :=
  [String.mk ("world".data ++ apos :: "s first".data), "worlds first",
   "best", "guarantee", "risk-free", "risk free", "perfect"]

/-- Keywords of `\b(help|support|contact)\b`. -/
def supportSigKws : List String := ["help", "support", "contact"]

/-- Signal of the beta/preview rule (lines 129–135). -/
def betaSignal : Signal :=
  ⟨"Beta / preview language detected", "Direct Observation",
   String.mk ("Users may interpret ".data ++ apos :: "beta".data ++ apos ::
     " as reduced reliability unless expectations are clearly set.".data),
   "Moderate"⟩

/-- Signal of the marketing-claims rule (lines 138–144). -/
def claimsSignal : Signal :=
  ⟨"Strong marketing claim language present", "Direct Observation",
   "Claim density can raise the evidence bar for trust (proof, policies, support clarity).",
   "Low"⟩

/-- Signal of the multiple-H1 rule (lines 147–154); the description
interpolates the count. -/
def h1Signal (n : Nat) : Signal :=
  ⟨"Multiple H1 headings detected (count=" ++ toString n ++ ")", "Direct Observation",
   "Could be brand-led design or accessibility/SEO trade-off; only matters if it harms clarity or navigation.",
   "Low"⟩

/-- Signal of the policy/legal rule (lines 157–163). -/
def policySignal : Signal :=
  ⟨"Policy/Legal references detected (privacy/terms)", "Direct Observation",
   "Good trust signal; verify discoverability and clarity in key user journeys.",
   "Moderate"⟩

/-- Signal of the support/help rule (lines 166–172). -/
def supportSignal : Signal :=
  ⟨"Support/help language detected", "Direct Observation",
   "Trust improves when escalation routes are visible at the point of friction.",
   "Moderate"⟩

/-- `detect_observable_signals` (lines 120–174): five independent rules
in a fixed order, each contributing zero or one signal. -/
def detect_observable_signals (html : String) : List Signal :=
  let lower := lowerL html.data
  (if reWordSearch betaKws html then [betaSignal] else []) ++
  (if reWordSearch claimsKws html then [claimsSignal] else []) ++
  (if countH1 lower > 1 then [h1Signal (countH1 lower)] else []) ++
  (if infixOfB "privacy".data lower || infixOfB "terms".data lower then [policySignal] else []) ++
  (if reWordSearch supportSigKws html then [supportSignal] else [])

/-- `sev_rank` dict (line 180), in insertion order. -/
def sev_rank : List (String × Nat) :=
  [("Low", 1), ("Medium", 2), ("High", 3), ("Critical", 4)]

/-- `conf_cap` dict (line 181). -/
def conf_cap : List (String × Nat) := [("Low", 2), ("Moderate", 3), ("High", 4)]

/-- `d.get(k, dflt)` on a string-keyed dict. -/
def dictGet (d : List (String × Nat)) (k : String) (dflt : Nat) : Nat :=
  ((d.find? (fun p => p.1 == k)).map Prod.snd).getD dflt

/-- `sorted(sev_rank.items(), key=lambda x: x[1], reverse=True)`. -/
def sevDesc : List (String × Nat) :=
  [("Critical", 4), ("High", 3), ("Medium", 2), ("Low", 1)]

/-- `cap_severity_by_confidence` (lines 176–189); `max_allowed` is
`conf_cap.get(confidence, 2)`. -/
def cap_severity_by_confidence (severity confidence : String) : String :=
  if dictGet sev_rank severity 1 > dictGet conf_cap confidence 2 then
    match sevDesc.find? (fun p => decide (p.2 ≤ dictGet conf_cap confidence 2)) with
    | some p => p.1
    | none => severity
  else severity

/-- `conf_levels` dict (line 202). -/
def conf_levels : List (String × Nat) := [("Low", 0), ("Moderate", 1), ("High", 2)]

/-- The raw band of the non-strict (discovery) branch (lines 208–212). -/
def raw_band_discovery (count : Nat) : String :=
  if count ≥ 3 then "Medium" else "Low"

/-- The raw band of the strict (judgment) branch (lines 215–220). -/
def raw_band_judgment (count : Nat) : String :=
  if count ≥ 4 then "High" else if count ≥ 2 then "Medium" else "Low"

/-- `max(conf_levels.get(s["confidence"], 0) for s in signals)` (line 205). -/
def confScore (signals : List Signal) : Nat :=
  (signals.map (fun s => dictGet conf_levels s.confidence 0)).foldl Nat.max 0

/-- Overall confidence string from the score (line 206). -/
def overallConf (signals : List Signal) : String :=
  if confScore signals = 0 then "Low"
  else if confScore signals = 1 then "Moderate" else "High"

/-- `propose_discovery_severity` (lines 191–223); returns
`(attention band, overall confidence)`. -/
def propose_discovery_severity (signals : List Signal) (judgment_mode : Bool) :
    String × String :=
  if signals = [] then ("Low", "High")
  else
    let count := signals.length
    if !judgment_mode then (raw_band_discovery count, overallConf signals)
    else
      (cap_severity_by_confidence (raw_band_judgment count) (overallConf signals),
       overallConf signals)

/-- One candidate of the link-extraction loop (lines 85–100), before the
trailing-slash strip: `None` models `continue`.  The anchor-scanning of
BeautifulSoup is abstracted by handing the function the `href` values in
document order. -/
def rawCandidate (base_url href0 : String) : Option (List Char) :=
  let base := urlparseL base_url.data []
  let base_origin := base.scheme ++ ':' :: '/' :: '/' :: base.netloc
  let href := pyStripL href0.data
  if href = [] then none
  else if href.head? = some '#' then none
  else if "mailto:".data.isPrefixOf href || "tel:".data.isPrefixOf href ||
      "javascript:".data.isPrefixOf href then none
  else
    let p := urlparseL (urljoinL base_origin href) []
    if p.netloc = base.netloc then
      some (p.scheme ++ ':' :: '/' :: '/' :: (p.netloc ++ p.path))
    else none

/-- The trailing-slash strip of line 98–99. -/
def stripSlash (l : List Char) : List Char :=
  if l.getLast? = some '/' then l.dropLast else l

/-- `clean` as added to the `links` set. -/
def candidateLink (base_url href : String) : Option String :=
  (rawCandidate base_url href).map (fun l => String.mk (stripSlash l))

/-- Order-preserving first-occurrence accumulation (the `links` set,
whose iteration order is irrelevant because the result is sorted). -/
def addNew (l : List String) (x : String) : List String :=
  if x ∈ l then l else l ++ [x]

/-- Deduplicating accumulation over the anchor list. -/
def dedupList (xs : List String) : List String := xs.foldl addNew []

/-- `extract_internal_links` (lines 79–104), over the list of href
attribute values found by the anchor scan. -/
def extract_internal_links (hrefs : List String) (base_url : String) : List String :=
  List.insertionSort strLe (dedupList (hrefs.filterMap (candidateLink base_url)))

/-- One step of the bound/dedupe loop (lines 312–319). -/
def boundedLoop (maxPages : Nat) : List String → List String → List String → List String
  | _, acc, [] => acc
  | seen, acc, u :: rest =>
    let st := if u ∈ seen then (seen, acc) else (u :: seen, acc ++ [u])
    if maxPages ≤ st.2.length then st.2
    else boundedLoop maxPages st.1 st.2 rest

/-- The bounded traversal list: `[base_origin] + candidate_links`,
deduplicated preserving order and truncated at `max_pages`
(lines 310–319). -/
def bounded (origin : String) (links : List String) (maxPages : Nat) : List String :=
  boundedLoop maxPages [] [] (origin :: links)

/-! ### Spec-side definition used by the C9 refinement comparison -/

/-- The spec's notion of "has a URL scheme" (§4.1 reads "If it lacks a
scheme, prefix `https://`"): a leading `<scheme>:` with the scheme
starting in an ASCII letter and made of scheme characters, exactly the
syntax `urlsplit` recognises as a scheme. -/
def specHasScheme (s : String) : Bool :=
  match s.data.findIdx? (fun c => c == ':') with
  | some i =>
    decide (0 < i) &&
      (match s.data.head? with | some c => isAlphaA c | none => false) &&
      (s.data.take i).all isSchemeChar
  | none => false

/-- The spec's resolution rule (§4.3 reads "Resolves relative hrefs
against `base_url`"): joining the href against the full page URL. -/
def specResolveAgainstBase (base_url href : String) : List Char :=
  urljoinL base_url.data href.data

/-! ### Helper lemmas: severity proposer -/

theorem dictGet_default_or_mem (d : List (String × Nat)) (k : String) (dflt : Nat) :
    dictGet d k dflt = dflt ∨ dictGet d k dflt ∈ d.map Prod.snd := by
  unfold dictGet
  cases hf : d.find? (fun p => p.1 == k) with
  | none => left; rfl
  | some p =>
    right
    exact List.mem_map_of_mem Prod.snd (List.mem_of_find?_eq_some hf)

theorem conf_cap_get_cases (conf : String) :
    dictGet conf_cap conf 2 = 2 ∨ dictGet conf_cap conf 2 = 3 ∨
      dictGet conf_cap conf 2 = 4 := by
  rcases dictGet_default_or_mem conf_cap conf 2 with h | h
  · omega
  · rcases List.mem_map.mp h with ⟨p, hp, hv⟩
    fin_cases hp <;> omega

theorem sev_rank_bounds (sev : String) :
    1 ≤ dictGet sev_rank sev 1 ∧ dictGet sev_rank sev 1 ≤ 4 := by
  rcases dictGet_default_or_mem sev_rank sev 1 with h | h
  · omega
  · rcases List.mem_map.mp h with ⟨p, hp, hv⟩
    fin_cases hp <;> omega

theorem sevDesc_find_two :
    sevDesc.find? (fun p => decide (p.2 ≤ 2)) = some ("Medium", 2) := by decide

theorem sevDesc_find_three :
    sevDesc.find? (fun p => decide (p.2 ≤ 3)) = some ("High", 3) := by decide

theorem sevDesc_find_four :
    sevDesc.find? (fun p => decide (p.2 ≤ 4)) = some ("Critical", 4) := by decide

/-- The cap step never raises the rank of a band. -/
theorem cap_rank_le (sev conf : String) :
    dictGet sev_rank (cap_severity_by_confidence sev conf) 1 ≤
      dictGet sev_rank sev 1 := by
  have hb := sev_rank_bounds sev
  unfold cap_severity_by_confidence
  rcases conf_cap_get_cases conf with hm | hm | hm <;> rw [hm] <;>
    split <;> rename_i hgt
  · rw [sevDesc_find_two]
    show dictGet sev_rank "Medium" 1 ≤ dictGet sev_rank sev 1
    have : dictGet sev_rank "Medium" 1 = 2 := by decide
    omega
  · exact Nat.le_refl _
  · rw [sevDesc_find_three]
    show dictGet sev_rank "High" 1 ≤ dictGet sev_rank sev 1
    have : dictGet sev_rank "High" 1 = 3 := by decide
    omega
  · exact Nat.le_refl _
  · rw [sevDesc_find_four]
    show dictGet sev_rank "Critical" 1 ≤ dictGet sev_rank sev 1
    have : dictGet sev_rank "Critical" 1 = 4 := by decide
    omega
  · exact Nat.le_refl _

/-- A band at most `"High"` is never capped to `"Critical"`. -/
theorem cap_of_band_ne_critical (b conf : String)
    (hb : b = "Low" ∨ b = "Medium" ∨ b = "High") :
    cap_severity_by_confidence b conf ≠ "Critical" := by
  unfold cap_severity_by_confidence
  rcases conf_cap_get_cases conf with hm | hm | hm <;> rw [hm] <;>
    rcases hb with hb | hb | hb <;> subst hb <;> decide

/-- The raw bands only take the three sub-critical values. -/
theorem raw_band_judgment_cases (count : Nat) :
    raw_band_judgment count = "Low" ∨ raw_band_judgment count = "Medium" ∨
      raw_band_judgment count = "High" := by
  unfold raw_band_judgment
  split
  · exact Or.inr (Or.inr rfl)
  · split
    · exact Or.inr (Or.inl rfl)
    · exact Or.inl rfl

theorem raw_band_discovery_cases (count : Nat) :
    raw_band_discovery count = "Low" ∨ raw_band_discovery count = "Medium" := by
  unfold raw_band_discovery
  split
  · exact Or.inr rfl
  · exact Or.inl rfl

/-- Capping a sub-critical band with `"Low"` confidence gives `"Low"` or
`"Medium"`. -/
theorem cap_low_conf (b : String)
    (hb : b = "Low" ∨ b = "Medium" ∨ b = "High") :
    cap_severity_by_confidence b "Low" = "Low" ∨
      cap_severity_by_confidence b "Low" = "Medium" := by
  rcases hb with hb | hb | hb <;> subst hb <;> decide

/-! ### Claim C1 -/

/-- C1: for every signal list and both judgment-mode flags, if the
overall confidence computed by `propose_discovery_severity` is `"Low"`,
the proposed attention band is `"Low"` or `"Medium"`, never `"High"` or
`"Critical"`. -/
theorem c1_low_confidence_caps_band (signals : List Signal) (judgment_mode : Bool)
    (h : (propose_discovery_severity signals judgment_mode).2 = "Low") :
    (propose_discovery_severity signals judgment_mode).1 = "Low" ∨
      (propose_discovery_severity signals judgment_mode).1 = "Medium" := by
  unfold propose_discovery_severity at h ⊢
  by_cases hs : signals = []
  · rw [if_pos hs] at h
    exact absurd h (by decide)
  · rw [if_neg hs] at h ⊢
    cases judgment_mode with
    | false =>
      simpa using raw_band_discovery_cases signals.length
    | true =>
      simp only [Bool.not_true, Bool.false_eq_true, if_false] at h ⊢
      rw [h]
      exact cap_low_conf _ (raw_band_judgment_cases _)

/-- Witness for C1 at a concrete one-signal input with overall
confidence `"Low"`. -/
theorem c1_low_confidence_caps_band_witness :
    (propose_discovery_severity [⟨"x", "y", "z", "Low"⟩] true).2 = "Low" ∧
      ((propose_discovery_severity [⟨"x", "y", "z", "Low"⟩] true).1 = "Low" ∨
        (propose_discovery_severity [⟨"x", "y", "z", "Low"⟩] true).1 = "Medium") :=
  ⟨by decide, c1_low_confidence_caps_band [⟨"x", "y", "z", "Low"⟩] true (by decide)⟩

/-! ### Claim C2 -/

/-- C2: the proposer never returns the band `"Critical"`; both raw-band
steps only ever produce `"Low"`, `"Medium"` or `"High"`; and the cap
step can only lower a band (its `sev_rank` never increases). -/
theorem c2_never_critical :
    (∀ (signals : List Signal) (judgment_mode : Bool),
      (propose_discovery_severity signals judgment_mode).1 ≠ "Critical") ∧
    (∀ count : Nat,
      (raw_band_discovery count = "Low" ∨ raw_band_discovery count = "Medium") ∧
      (raw_band_judgment count = "Low" ∨ raw_band_judgment count = "Medium" ∨
        raw_band_judgment count = "High")) ∧
    (∀ sev conf : String,
      dictGet sev_rank (cap_severity_by_confidence sev conf) 1 ≤
        dictGet sev_rank sev 1) := by
  refine ⟨?_, fun count => ⟨raw_band_discovery_cases count, raw_band_judgment_cases count⟩,
    fun sev conf => cap_rank_le sev conf⟩
  intro signals judgment_mode
  unfold propose_discovery_severity
  by_cases hs : signals = []
  · rw [if_pos hs]
    decide
  · rw [if_neg hs]
    cases judgment_mode with
    | false =>
      rcases raw_band_discovery_cases signals.length with h | h <;> simp [h]
    | true =>
      simpa using cap_of_band_ne_critical _ _ (raw_band_judgment_cases signals.length)

/-- Witness for C2 at concrete inputs. -/
theorem c2_never_critical_witness :
    (propose_discovery_severity [⟨"a", "b", "c", "High"⟩, ⟨"a", "b", "c", "High"⟩,
      ⟨"a", "b", "c", "High"⟩, ⟨"a", "b", "c", "High"⟩] true).1 ≠ "Critical" :=
  c2_never_critical.1 _ true

/-! ### Claim C3 -/

theorem boundedLoop_acc_extends (maxPages : Nat) (l : List String) :
    ∀ seen acc, ∃ t, boundedLoop maxPages seen acc l = acc ++ t := by
  induction l with
  | nil => intro seen acc; exact ⟨[], (List.append_nil acc).symm⟩
  | cons u rest ih =>
    intro seen acc
    unfold boundedLoop
    by_cases hm : u ∈ seen
    · simp only [hm, if_pos]
      split
      · exact ⟨[], (List.append_nil acc).symm⟩
      · exact ih seen acc
    · simp only [hm, if_neg, not_false_iff]
      split
      · exact ⟨[u], rfl⟩
      · obtain ⟨t, ht⟩ := ih (u :: seen) (acc ++ [u])
        exact ⟨[u] ++ t, by simp [ht]⟩

theorem boundedLoop_length_le (maxPages : Nat) (l : List String) :
    ∀ seen acc, acc.length < maxPages →
      (boundedLoop maxPages seen acc l).length ≤ maxPages := by
  induction l with
  | nil => intro seen acc h; simpa using Nat.le_of_lt h
  | cons u rest ih =>
    intro seen acc h
    unfold boundedLoop
    by_cases hm : u ∈ seen
    · simp only [hm, if_pos]
      split
      · exact Nat.le_of_lt h
      · exact ih seen acc h
    · simp only [hm, if_neg, not_false_iff]
      split
      · rename_i h2
        simp only [List.length_append, List.length_singleton]
        omega
      · rename_i h2
        apply ih
        simp only [List.length_append, List.length_singleton] at h2 ⊢
        omega

theorem boundedLoop_nodup (maxPages : Nat) (l : List String) :
    ∀ seen acc, acc.Nodup → (∀ x ∈ acc, x ∈ seen) →
      (boundedLoop maxPages seen acc l).Nodup := by
  induction l with
  | nil => intro seen acc h _; simpa using h
  | cons u rest ih =>
    intro seen acc hnd hsub
    unfold boundedLoop
    by_cases hm : u ∈ seen
    · simp only [hm, if_pos]
      split
      · exact hnd
      · exact ih seen acc hnd hsub
    · simp only [hm, if_neg, not_false_iff]
      have hu : u ∉ acc := fun hu => hm (hsub u hu)
      have hnd' : (acc ++ [u]).Nodup := by
        simp [List.nodup_append, hnd, List.disjoint_singleton, hu]
      split
      · exact hnd'
      · exact ih (u :: seen) (acc ++ [u]) hnd'
          (fun x hx => by
            rcases List.mem_append.mp hx with hx | hx
            · exact List.mem_cons_of_mem u (hsub x hx)
            · simp only [List.mem_singleton] at hx
              rw [hx]
              exact List.mem_cons_self u seen)

/-- C3: for every positive page bound, origin and extracted-link list,
the bounded traversal list is capped at `max_pages`, starts with the
origin, and contains no duplicates. -/
theorem c3_bounded_invariants (origin : String) (links : List String)
    (maxPages : Nat) (h : 0 < maxPages) :
    (bounded origin links maxPages).length ≤ maxPages ∧
    (bounded origin links maxPages).head? = some origin ∧
    (bounded origin links maxPages).Nodup := by
  refine ⟨boundedLoop_length_le maxPages _ [] [] (by simpa using h), ?_,
    boundedLoop_nodup maxPages _ [] [] List.nodup_nil (by simp)⟩
  unfold bounded boundedLoop
  simp only [List.not_mem_nil, if_neg, not_false_iff, List.nil_append]
  split
  · rfl
  · obtain ⟨t, ht⟩ := boundedLoop_acc_extends maxPages links [origin] [origin]
    rw [ht]
    rfl

/-- Witness for C3 at a concrete configuration. -/
theorem c3_bounded_invariants_witness :
    (bounded "o" ["a", "o", "b", "a", "c"] 3).length ≤ 3 ∧
    (bounded "o" ["a", "o", "b", "a", "c"] 3).head? = some "o" ∧
    (bounded "o" ["a", "o", "b", "a", "c"] 3).Nodup :=
  c3_bounded_invariants "o" ["a", "o", "b", "a", "c"] 3 (by decide)

/-! ### Claim C9 -/

/-- C9 counterexample: the normalizer tests `startswith("http")`, not
"has a URL scheme".  `"ftp://example.com"` has a scheme yet is not
returned unchanged, and `"httpx.com"` has no scheme yet is not prefixed
with `https://`. -/
theorem c9_counterexample :
    (specHasScheme "ftp://example.com" = true ∧
      normalize_url "ftp://example.com" = "https://ftp://example.com" ∧
      normalize_url "ftp://example.com" ≠ "ftp://example.com") ∧
    (specHasScheme "httpx.com" = false ∧ pyStrip "httpx.com" = "httpx.com" ∧
      normalize_url "httpx.com" = "httpx.com" ∧
      normalize_url "httpx.com" ≠ "https://httpx.com") := by decide

/-- C9 amended: for every input whose trimmed form is non-empty, the
normalizer returns the trimmed string prefixed with `https://` exactly
when the trimmed string does not start with the four characters
`"http"`, and returns it unchanged when it does. -/
theorem c9_normalize_by_http_literal (raw : String) (h : pyStrip raw ≠ "") :
    ("http".data.isPrefixOf (pyStrip raw).data = false →
      normalize_url raw = "https://" ++ pyStrip raw) ∧
    ("http".data.isPrefixOf (pyStrip raw).data = true →
      normalize_url raw = pyStrip raw) := by
  constructor <;> intro hp <;> unfold normalize_url <;> rw [if_neg h] <;> simp [hp]

/-- Witness for the amended C9 at concrete inputs. -/
theorem c9_normalize_by_http_literal_witness :
    normalize_url "  nike.com " = "https://" ++ pyStrip "  nike.com " ∧
    normalize_url " http://a.b " = pyStrip " http://a.b " :=
  ⟨(c9_normalize_by_http_literal "  nike.com " (by decide)).1 (by decide),
   (c9_normalize_by_http_literal " http://a.b " (by decide)).2 (by decide)⟩

/-! ### Claim C5 -/

/-- C5 counterexample: resolving against `base_url` (the spec's rule)
would send href `"c"` on page `https://host/a/b` to
`https://host/a/c`, but the extractor returns `https://host/c` and
never `https://host/a/c` — it joins against the origin instead. -/
theorem c5_counterexample :
    specResolveAgainstBase "https://host/a/b" "c" = "https://host/a/c".data ∧
    extract_internal_links ["c"] "https://host/a/b" = ["https://host/c"] ∧
    "https://host/a/c" ∉ extract_internal_links ["c"] "https://host/a/b" := by
  decide

/-- C5 amended: the extractor resolves every href against the origin
(`scheme://host`) of `base_url`, not against `base_url` itself, so href
`"c"` on page `https://host/a/b` resolves to `https://host/c`. -/
theorem c5_resolves_against_origin :
    rawCandidate "https://host/a/b" "c" =
      some (urljoinL "https://host".data "c".data) ∧
    extract_internal_links ["c"] "https://host/a/b" = ["https://host/c"] ∧
    extract_internal_links ["d/e"] "https://host/a/b" = ["https://host/d/e"] ∧
    extract_internal_links ["../z"] "https://host/a/b" = ["https://host/z"] := by
  decide

/-! ### Claim C7 -/

theorem ite_singleton_map_confidence_sublist (c : Prop) [Decidable c] (s : Signal) :
    List.Sublist ((if c then [s] else []).map Signal.confidence) [s.confidence] := by
  split
  · exact List.Sublist.refl _
  · exact List.nil_sublist _

/-- C7: the signal detector is deterministic (equal output on equal
input), and its output confidences form a sublist of the fixed rule
table `[Moderate, Low, Low, Moderate, Moderate]` — each of the five
rules contributes zero or one signal, in the fixed rule order, with a
confidence that is a static property of the rule; in particular at most
five signals are produced. -/
theorem c7_detector_idempotent_static (html : String) :
    detect_observable_signals html = detect_observable_signals html ∧
    List.Sublist ((detect_observable_signals html).map Signal.confidence)
      ["Moderate", "Low", "Low", "Moderate", "Moderate"] ∧
    (detect_observable_signals html).length ≤ 5 := by
  have hsub : List.Sublist ((detect_observable_signals html).map Signal.confidence)
      ["Moderate", "Low", "Low", "Moderate", "Moderate"] := by
    show List.Sublist _ (["Moderate"] ++ ["Low"] ++ ["Low"] ++ ["Moderate"] ++ ["Moderate"])
    simp only [detect_observable_signals, List.map_append]
    exact ((((ite_singleton_map_confidence_sublist _ betaSignal).append
      (ite_singleton_map_confidence_sublist _ claimsSignal)).append
      (ite_singleton_map_confidence_sublist _ (h1Signal _))).append
      (ite_singleton_map_confidence_sublist _ policySignal)).append
      (ite_singleton_map_confidence_sublist _ supportSignal)
  refine ⟨rfl, hsub, ?_⟩
  have := hsub.length_le
  simpa using this

/-! ### Claim C8 -/

/-- C8: on HTML where the beta rule fires, the H1 count is two and no
other rule fires, the detector returns exactly the beta signal
(confidence Moderate) followed by the multiple-H1 signal (confidence
Low), and the non-strict proposer returns band `"Low"` with overall
confidence `"Moderate"` (the max of the two), the count being below 3. -/
theorem c8_beta_multih1_scenario (html : String)
    (hbeta : reWordSearch betaKws html = true)
    (hclaims : reWordSearch claimsKws html = false)
    (hh1 : countH1 (lowerL html.data) = 2)
    (hpriv : infixOfB "privacy".data (lowerL html.data) = false)
    (hterms : infixOfB "terms".data (lowerL html.data) = false)
    (hsupport : reWordSearch supportSigKws html = false) :
    detect_observable_signals html = [betaSignal, h1Signal 2] ∧
    betaSignal.confidence = "Moderate" ∧ (h1Signal 2).confidence = "Low" ∧
    propose_discovery_severity (detect_observable_signals html) false =
      ("Low", "Moderate") := by
  have hd : detect_observable_signals html = [betaSignal, h1Signal 2] := by
    simp [detect_observable_signals, hbeta, hclaims, hh1, hpriv, hterms, hsupport]
  refine ⟨hd, rfl, rfl, ?_⟩
  rw [hd]
  decide

/-- Witness for C8 at the spec's concrete homepage HTML. -/
theorem c8_beta_multih1_scenario_witness :
    detect_observable_signals "<h1>A</h1><h1>B</h1> beta" =
      [betaSignal, h1Signal 2] ∧
    propose_discovery_severity
      (detect_observable_signals "<h1>A</h1><h1>B</h1> beta") false =
      ("Low", "Moderate") := by
  have h := c8_beta_multih1_scenario "<h1>A</h1><h1>B</h1> beta"
    (by decide) (by decide) (by decide) (by decide) (by decide) (by decide)
  exact ⟨h.1, h.2.2.2⟩

/-! ### Claim C6 -/

/-- C6: the trust-domain classifier is total (always one of the three
domains), a pure function of the parsed URL path, tests the
support/legal keywords before the transaction keywords (a path matching
the support set is Support Reliability no matter what else it matches),
and defaults to Brand Credibility when neither set matches. -/
theorem c6_classifier_total_pure (url : String) :
    (classify_trust_domain url = "Brand Credibility" ∨
      classify_trust_domain url = "Transaction Safety" ∨
      classify_trust_domain url = "Support Reliability") ∧
    (∀ url' : String,
      (urlparseL url.data []).path = (urlparseL url'.data []).path →
      classify_trust_domain url = classify_trust_domain url') ∧
    (supportKws.any (fun k => infixOfB k.data (lowerL (urlparseL url.data []).path)) = true →
      classify_trust_domain url = "Support Reliability") ∧
    (supportKws.any (fun k => infixOfB k.data (lowerL (urlparseL url.data []).path)) = false →
      transactionKws.any (fun k => infixOfB k.data (lowerL (urlparseL url.data []).path)) = false →
      classify_trust_domain url = "Brand Credibility") := by
  refine ⟨?_, ?_, ?_, ?_⟩
  · unfold classify_trust_domain classifyPath
    split
    · exact Or.inr (Or.inr rfl)
    · split
      · exact Or.inr (Or.inl rfl)
      · exact Or.inl rfl
  · intro url' h
    unfold classify_trust_domain
    rw [h]
  · intro h
    simp [classify_trust_domain, classifyPath, h]
  · intro h1 h2
    simp [classify_trust_domain, classifyPath, h1, h2]

/-- Witness for C6 at concrete URLs: a path matching both keyword sets
is Support Reliability, a path matching neither is Brand Credibility,
and two URLs with the same path classify identically. -/
theorem c6_classifier_total_pure_witness :
    classify_trust_domain "https://h/help-checkout" = "Support Reliability" ∧
    classify_trust_domain "https://h/x" = "Brand Credibility" ∧
    classify_trust_domain "https://h2/help-checkout" =
      classify_trust_domain "https://h/help-checkout" :=
  ⟨(c6_classifier_total_pure "https://h/help-checkout").2.2.1 (by decide),
   (c6_classifier_total_pure "https://h/x").2.2.2 (by decide) (by decide),
   (c6_classifier_total_pure "https://h2/help-checkout").2.1
     "https://h/help-checkout" (by decide)⟩

/-! ### Claim C10 -/

theorem char_eq_of_toNat_eq {a b : Char} (h : a.toNat = b.toNat) : a = b := by
  apply Char.eq_of_val_eq
  apply UInt32.ext
  simpa [Char.toNat, UInt32.toNat] using h

theorem lexLeB_total : ∀ a b : List Char, lexLeB a b = true ∨ lexLeB b a = true
  | [], _ => Or.inl rfl
  | _ :: _, [] => Or.inr rfl
  | a :: as, b :: bs => by
    rcases Nat.lt_trichotomy a.toNat b.toNat with hlt | heq | hgt
    · left
      rw [lexLeB, if_pos hlt]
    · have hne₁ : ¬a.toNat < b.toNat := by omega
      have hne₂ : ¬b.toNat < a.toNat := by omega
      rcases lexLeB_total as bs with h | h
      · left
        rw [lexLeB, if_neg hne₁, if_neg hne₂]
        exact h
      · right
        rw [lexLeB, if_neg hne₂, if_neg hne₁]
        exact h
    · right
      rw [lexLeB, if_pos hgt]

theorem lexLeB_trans : ∀ a b c : List Char,
    lexLeB a b = true → lexLeB b c = true → lexLeB a c = true
  | [], _, _, _, _ => rfl
  | a :: as, [], _, h1, _ => absurd h1 (by rw [lexLeB]; exact Bool.false_ne_true)
  | _ :: _, _ :: _, [], _, h2 => absurd h2 (by rw [lexLeB]; exact Bool.false_ne_true)
  | a :: as, b :: bs, c :: cs, h1, h2 => by
    rw [lexLeB] at h1 h2 ⊢
    rcases Nat.lt_trichotomy a.toNat b.toNat with hab | hab | hab
    · rcases Nat.lt_trichotomy b.toNat c.toNat with hbc | hbc | hbc
      · rw [if_pos (by omega)]
      · rw [if_pos (by omega)]
      · rw [if_neg (by omega), if_pos (by omega)] at h2
        exact absurd h2 Bool.false_ne_true
    · rcases Nat.lt_trichotomy b.toNat c.toNat with hbc | hbc | hbc
      · rw [if_pos (by omega)]
      · rw [if_neg (by omega), if_neg (by omega)] at h1 h2 ⊢
        exact lexLeB_trans as bs cs h1 h2
      · rw [if_neg (by omega), if_pos (by omega)] at h2
        exact absurd h2 Bool.false_ne_true
    · rw [if_neg (by omega), if_pos (by omega)] at h1
      exact absurd h1 Bool.false_ne_true

theorem lexLeB_antisymm : ∀ a b : List Char,
    lexLeB a b = true → lexLeB b a = true → a = b
  | [], [], _, _ => rfl
  | [], _ :: _, _, h2 => absurd h2 (by rw [lexLeB]; exact Bool.false_ne_true)
  | _ :: _, [], h1, _ => absurd h1 (by rw [lexLeB]; exact Bool.false_ne_true)
  | a :: as, b :: bs, h1, h2 => by
    rcases Nat.lt_trichotomy a.toNat b.toNat with hlt | heq | hgt
    · rw [lexLeB, if_neg (by omega), if_pos hlt] at h2
      exact absurd h2 Bool.false_ne_true
    · rw [lexLeB, if_neg (by omega), if_neg (by omega)] at h1 h2
      rw [char_eq_of_toNat_eq heq, lexLeB_antisymm as bs h1 h2]
    · rw [lexLeB, if_neg (by omega), if_pos hgt] at h1
      exact absurd h1 Bool.false_ne_true

theorem string_data_inj {a b : String} (h : a.data = b.data) : a = b := by
  cases a
  cases b
  exact congrArg String.mk h

instance : IsTotal String strLe :=
  ⟨fun a b => lexLeB_total a.data b.data⟩

instance : IsTrans String strLe :=
  ⟨fun a b c h1 h2 => lexLeB_trans a.data b.data c.data h1 h2⟩

instance : IsAntisymm String strLe :=
  ⟨fun a b h1 h2 => string_data_inj (lexLeB_antisymm a.data b.data h1 h2)⟩

theorem mem_addNew (acc : List String) (y x : String) :
    x ∈ addNew acc y ↔ x ∈ acc ∨ x = y := by
  unfold addNew
  by_cases hy : y ∈ acc
  · rw [if_pos hy]
    constructor
    · exact Or.inl
    · rintro (h | h)
      · exact h
      · rw [h]; exact hy
  · rw [if_neg hy]
    simp

theorem mem_foldl_addNew (xs : List String) :
    ∀ acc x, x ∈ xs.foldl addNew acc ↔ x ∈ acc ∨ x ∈ xs := by
  induction xs with
  | nil => intro acc x; simp
  | cons y ys ih =>
    intro acc x
    rw [List.foldl_cons, ih, mem_addNew]
    simp only [List.mem_cons]
    tauto

theorem mem_dedupList (xs : List String) (x : String) :
    x ∈ dedupList xs ↔ x ∈ xs := by
  unfold dedupList
  rw [mem_foldl_addNew]
  simp

theorem nodup_foldl_addNew (xs : List String) :
    ∀ acc : List String, acc.Nodup → (xs.foldl addNew acc).Nodup := by
  induction xs with
  | nil => intro acc h; simpa using h
  | cons y ys ih =>
    intro acc h
    rw [List.foldl_cons]
    apply ih
    unfold addNew
    by_cases hy : y ∈ acc
    · rwa [if_pos hy]
    · rw [if_neg hy]
      simp [List.nodup_append, h, hy]

theorem nodup_dedupList (xs : List String) : (dedupList xs).Nodup :=
  nodup_foldl_addNew xs [] List.nodup_nil

/-- C10: the extractor's output is sorted ascending in the code-point
lexicographic string order (Python's `sorted`), and is therefore
invariant under any permutation of the anchor/href order found in the
HTML — the output order does not depend on document order. -/
theorem c10_extractor_sorted_deterministic (hrefs hrefs' : List String)
    (base_url : String) (hperm : List.Perm hrefs hrefs') :
    List.Sorted strLe (extract_internal_links hrefs base_url) ∧
    extract_internal_links hrefs base_url =
      extract_internal_links hrefs' base_url := by
  constructor
  · exact List.sorted_insertionSort strLe _
  · unfold extract_internal_links
    apply List.eq_of_perm_of_sorted ?_ (List.sorted_insertionSort _ _)
      (List.sorted_insertionSort _ _)
    have p1 := List.perm_insertionSort strLe
      (dedupList (hrefs.filterMap (candidateLink base_url)))
    have p2 := List.perm_insertionSort strLe
      (dedupList (hrefs'.filterMap (candidateLink base_url)))
    refine p1.trans (List.Perm.trans ?_ p2.symm)
    rw [List.perm_ext_iff_of_nodup (nodup_dedupList _) (nodup_dedupList _)]
    intro a
    rw [mem_dedupList, mem_dedupList]
    exact (hperm.filterMap (candidateLink base_url)).mem_iff

/-- Witness for C10 at a concrete href list and its reversal. -/
theorem c10_extractor_sorted_deterministic_witness :
    List.Sorted strLe (extract_internal_links ["b", "a"] "https://host") ∧
    extract_internal_links ["b", "a"] "https://host" =
      extract_internal_links ["a", "b"] "https://host" :=
  c10_extractor_sorted_deterministic ["b", "a"] ["a", "b"] "https://host" (by decide)

/-! ### Claim C4: character-level lemmas -/

theorem char_toNat_ofNat {n : Nat} (h : n.isValidChar) : (Char.ofNat n).toNat = n := by
  simp [Char.ofNat, dif_pos h, Char.ofNatAux, Char.toNat, UInt32.toNat, BitVec.toNat_ofNatLt]

theorem lowerChar_toNat (c : Char) :
    (lowerChar c).toNat =
      if 65 ≤ c.toNat ∧ c.toNat ≤ 90 then c.toNat + 32 else c.toNat := by
  unfold lowerChar
  split
  · rename_i h
    exact char_toNat_ofNat (Or.inl (by omega))
  · rfl

theorem isUpperA_iff (c : Char) : isUpperA c = true ↔ 65 ≤ c.toNat ∧ c.toNat ≤ 90 := by
  simp [isUpperA]

theorem isLowerA_iff (c : Char) : isLowerA c = true ↔ 97 ≤ c.toNat ∧ c.toNat ≤ 122 := by
  simp [isLowerA]

theorem isDigitA_iff (c : Char) : isDigitA c = true ↔ 48 ≤ c.toNat ∧ c.toNat ≤ 57 := by
  simp [isDigitA]

theorem isAlphaA_iff (c : Char) :
    isAlphaA c = true ↔ (65 ≤ c.toNat ∧ c.toNat ≤ 90) ∨ (97 ≤ c.toNat ∧ c.toNat ≤ 122) := by
  simp [isAlphaA, isUpperA_iff, isLowerA_iff]

theorem isSchemeChar_iff (c : Char) :
    isSchemeChar c = true ↔
      (65 ≤ c.toNat ∧ c.toNat ≤ 90) ∨ (97 ≤ c.toNat ∧ c.toNat ≤ 122) ∨
      (48 ≤ c.toNat ∧ c.toNat ≤ 57) ∨ c.toNat = 43 ∨ c.toNat = 45 ∨ c.toNat = 46 := by
  simp [isSchemeChar, isAlphaA_iff, isDigitA_iff]
  tauto

theorem safeChar_iff (c : Char) :
    safeChar c = true ↔ c.toNat ≠ 9 ∧ c.toNat ≠ 13 ∧ c.toNat ≠ 10 := by
  simp [safeChar]

theorem netlocStop_iff (c : Char) :
    netlocStop c = true ↔ c.toNat = 47 ∨ c.toNat = 63 ∨ c.toNat = 35 := by
  simp [netlocStop]

theorem netlocStop_eq_false_iff (c : Char) :
    netlocStop c = false ↔ c.toNat ≠ 47 ∧ c.toNat ≠ 63 ∧ c.toNat ≠ 35 := by
  rw [← Bool.not_eq_true, netlocStop_iff]
  tauto

theorem isUpperA_lowerChar (c : Char) : isUpperA (lowerChar c) = false := by
  rw [← Bool.not_eq_true, isUpperA_iff, lowerChar_toNat]
  split <;> omega

theorem isAlphaA_lowerChar {c : Char} (h : isAlphaA c = true) :
    isAlphaA (lowerChar c) = true := by
  rw [isAlphaA_iff] at h ⊢
  rw [lowerChar_toNat]
  split <;> omega

theorem isSchemeChar_lowerChar {c : Char} (h : isSchemeChar c = true) :
    isSchemeChar (lowerChar c) = true := by
  rw [isSchemeChar_iff] at h ⊢
  rw [lowerChar_toNat]
  split <;> omega

theorem safeChar_of_schemeChar {c : Char} (h : isSchemeChar c = true) :
    safeChar c = true := by
  rw [isSchemeChar_iff] at h
  rw [safeChar_iff]
  omega

theorem schemeChar_ne_colon {c : Char} (h : isSchemeChar c = true) :
    (c == ':') = false := by
  rw [beq_eq_false_iff_ne]
  intro he
  rw [isSchemeChar_iff] at h
  subst he
  simp at h

theorem lowerChar_eq_self {c : Char} (h : isUpperA c = false) : lowerChar c = c := by
  unfold lowerChar
  rw [if_neg]
  intro hc
  rw [← Bool.not_eq_true, isUpperA_iff] at h
  exact h hc

theorem lowerL_eq_self {s : List Char} (h : ∀ c ∈ s, isUpperA c = false) :
    lowerL s = s := by
  induction s with
  | nil => rfl
  | cons c t ih =>
    have hc := lowerChar_eq_self (h c (List.mem_cons_self c t))
    have ht := ih (fun x hx => h x (List.mem_cons_of_mem c hx))
    simp only [lowerL, List.map_cons] at ht ⊢
    rw [hc, ht]

theorem GoodScheme_safe {s : List Char} (h : GoodScheme s) :
    ∀ c ∈ s, safeChar c = true :=
  fun c hc => safeChar_of_schemeChar (h.2.2.1 c hc)

/-! ### Claim C4: splitting lemmas -/

theorem splitFirst_eq_some {c : Char} {l : List Char} : ∀ {a b : List Char},
    splitFirst c l = some (a, b) →
    l = a ++ c :: b ∧ (∀ x ∈ a, (x == c) = false) := by
  induction l with
  | nil => intro a b h; simp [splitFirst] at h
  | cons x t ih =>
    intro a b h
    rw [splitFirst] at h
    split at h
    · rename_i hx
      simp only [Option.some_inj, Prod.mk.injEq] at h
      obtain ⟨ha, hb⟩ := h
      refine ⟨?_, ?_⟩
      · rw [← ha, ← hb, List.nil_append, eq_of_beq hx]
      · intro x' hx'
        rw [← ha] at hx'
        exact absurd hx' (List.not_mem_nil x')
    · rename_i hx
      cases hs : splitFirst c t with
      | none => rw [hs] at h; simp at h
      | some p =>
        rw [hs, Option.map_some'] at h
        simp only [Option.some_inj, Prod.mk.injEq] at h
        obtain ⟨ha, hb⟩ := h
        obtain ⟨h1, h2⟩ := ih (a := p.1) (b := p.2) (by rw [hs])
        refine ⟨?_, ?_⟩
        · rw [← ha, ← hb, List.cons_append, ← h1]
        · intro x' hx'
          rw [← ha] at hx'
          rcases List.mem_cons.mp hx' with h' | h'
          · rw [h']
            exact Bool.not_eq_true _ ▸ hx
          · exact h2 x' h'

theorem splitFirst_of_not_mem {c : Char} {l : List Char}
    (h : ∀ x ∈ l, (x == c) = false) : splitFirst c l = none := by
  induction l with
  | nil => rfl
  | cons x t ih =>
    rw [splitFirst, if_neg, ih (fun y hy => h y (List.mem_cons_of_mem x hy))]
    · rfl
    · rw [h x (List.mem_cons_self x t)]
      exact Bool.false_ne_true

theorem findIdx?_append_cons {p : Char → Bool} :
    ∀ (xs : List Char) {y : Char} (ys : List Char),
    (∀ x ∈ xs, p x = false) → p y = true →
    (xs ++ y :: ys).findIdx? p = some xs.length := by
  intro xs
  induction xs with
  | nil => intro y ys _ hy; simp [hy]
  | cons x t ih =>
    intro y ys h hy
    rw [List.cons_append, List.findIdx?_cons,
      if_neg (by rw [h x (List.mem_cons_self x t)]; exact Bool.false_ne_true),
      List.findIdx?_succ, ih ys (fun z hz => h z (List.mem_cons_of_mem x hz)) hy,
      Option.map_some']
    rfl

theorem drop_length_succ_append (xs : List Char) (y : Char) (ys : List Char) :
    (xs ++ y :: ys).drop (xs.length + 1) = ys := by
  rw [← List.drop_drop, List.drop_left]
  rfl

theorem takeWhile_append_all {p : Char → Bool} :
    ∀ (xs ys : List Char), (∀ x ∈ xs, p x = true) →
    (xs ++ ys).takeWhile p = xs ++ ys.takeWhile p ∧
    (xs ++ ys).dropWhile p = ys.dropWhile p := by
  intro xs
  induction xs with
  | nil => intro ys _; exact ⟨rfl, rfl⟩
  | cons x t ih =>
    intro ys h
    obtain ⟨h1, h2⟩ := ih ys (fun z hz => h z (List.mem_cons_of_mem x hz))
    rw [List.cons_append, List.takeWhile_cons, List.dropWhile_cons,
      if_pos (h x (List.mem_cons_self x t)), if_pos (h x (List.mem_cons_self x t)),
      h1, h2, List.cons_append]
    exact ⟨rfl, rfl⟩

theorem takeWhile_head_stop {p : Char → Bool} (ys : List Char)
    (h : ys = [] ∨ ∃ y t, ys = y :: t ∧ p y = false) :
    ys.takeWhile p = [] ∧ ys.dropWhile p = ys := by
  rcases h with h | ⟨y, t, h, hy⟩
  · subst h; exact ⟨rfl, rfl⟩
  · subst h
    rw [List.takeWhile_cons, List.dropWhile_cons, if_neg, if_neg]
    · exact ⟨rfl, rfl⟩
    · rw [hy]; exact Bool.false_ne_true
    · rw [hy]; exact Bool.false_ne_true

/-! ### Claim C4: scheme-splitting lemmas -/

theorem removeUnsafe_safe (l : List Char) : ∀ c ∈ removeUnsafe l, safeChar c = true :=
  fun _ hc => (List.mem_filter.mp hc).2

theorem removeUnsafe_eq_self {l : List Char} (h : ∀ c ∈ l, safeChar c = true) :
    removeUnsafe l = l := List.filter_eq_self.mpr h

theorem schemeSplit_of_findIdx_none {l d : List Char}
    (hf : l.findIdx? (fun c => c == ':') = none) : schemeSplit l d = (d, l) := by
  unfold schemeSplit
  rw [hf]

theorem schemeSplit_of_findIdx_some {l d : List Char} {i : Nat}
    (hf : l.findIdx? (fun c => c == ':') = some i) :
    schemeSplit l d =
      if (decide (0 < i) &&
          (match l.head? with | some c => isAlphaA c | none => false) &&
          (l.take i).all isSchemeChar) = true
      then (lowerL (l.take i), l.drop (i + 1)) else (d, l) := by
  unfold schemeSplit
  rw [hf]

theorem schemeSplit_cases (l d : List Char) :
    schemeSplit l d = (d, l) ∨
    ∃ i, GoodScheme (lowerL (l.take i)) ∧
      ∀ d', schemeSplit l d' = (lowerL (l.take i), l.drop (i + 1)) := by
  cases hf : l.findIdx? (fun c => c == ':') with
  | none => exact Or.inl (schemeSplit_of_findIdx_none hf)
  | some i =>
    by_cases hc : (decide (0 < i) &&
        (match l.head? with | some c => isAlphaA c | none => false) &&
        (l.take i).all isSchemeChar) = true
    · right
      refine ⟨i, ⟨?_, ?_, ?_, ?_⟩,
        fun d' => by rw [schemeSplit_of_findIdx_some hf, if_pos hc]⟩
      all_goals
        rw [Bool.and_eq_true, Bool.and_eq_true] at hc
        obtain ⟨⟨hi, hhead⟩, hall⟩ := hc
        rw [decide_eq_true_iff] at hi
      · cases l with
        | nil => simp at hhead
        | cons x t =>
          obtain ⟨j, rfl⟩ : ∃ j, i = j + 1 := ⟨i - 1, by omega⟩
          simp [lowerL, List.take_succ_cons]
      · cases l with
        | nil => simp at hhead
        | cons x t =>
          simp only [List.head?_cons] at hhead
          obtain ⟨j, rfl⟩ : ∃ j, i = j + 1 := ⟨i - 1, by omega⟩
          simp only [lowerL, List.take_succ_cons, List.map_cons, List.head?_cons,
            Option.map_some', Option.getD_some]
          exact isAlphaA_lowerChar hhead
      · intro c hc'
        obtain ⟨c₀, hc₀, rfl⟩ := List.mem_map.mp hc'
        exact isSchemeChar_lowerChar (List.all_eq_true.mp hall c₀ hc₀)
      · intro c hc'
        obtain ⟨c₀, _, rfl⟩ := List.mem_map.mp hc'
        exact isUpperA_lowerChar c₀
    · exact Or.inl (by rw [schemeSplit_of_findIdx_some hf, if_neg hc])

theorem schemeSplit_good_start {S : List Char} (hS : GoodScheme S)
    (R d : List Char) : schemeSplit (S ++ ':' :: R) d = (S, R) := by
  have hfind : (S ++ ':' :: R).findIdx? (fun c => c == ':') = some S.length :=
    findIdx?_append_cons S R
      (fun x hx => schemeChar_ne_colon (hS.2.2.1 x hx)) (by simp)
  obtain ⟨x, t, rfl⟩ : ∃ x t, S = x :: t := by
    cases S with
    | nil => exact absurd rfl hS.1
    | cons x t => exact ⟨x, t, rfl⟩
  have hhead : isAlphaA x = true := by
    have := hS.2.1
    simpa using this
  rw [schemeSplit_of_findIdx_some hfind, if_pos, List.take_left,
    drop_length_succ_append, lowerL_eq_self hS.2.2.2]
  rw [Bool.and_eq_true, Bool.and_eq_true]
  refine ⟨⟨?_, ?_⟩, ?_⟩
  · simp
  · simpa using hhead
  · rw [List.take_left]
    exact List.all_eq_true.mpr hS.2.2.1

/-! ### Claim C4: reparsing a canonicalized URL -/

theorem splitAfterScheme_netloc_form {N P : List Char}
    (hN : ∀ c ∈ N, netlocStop c = false)
    (hP : P = [] ∨ ∃ t, P = '/' :: t)
    (hPq : ∀ c ∈ P, (c == '#') = false ∧ (c == '?') = false) :
    splitAfterScheme ('/' :: '/' :: (N ++ P)) = (N, P, [], []) := by
  have h2 : ('/' :: '/' :: (N ++ P)).take 2 = ['/', '/'] := rfl
  have hdrop : ('/' :: '/' :: (N ++ P)).drop 2 = N ++ P := rfl
  obtain ⟨ht, hd⟩ := takeWhile_append_all (p := fun c => !netlocStop c) N P
    (fun x hx => by simp only [hN x hx]; rfl)
  obtain ⟨ht2, hd2⟩ := takeWhile_head_stop (p := fun c => !netlocStop c) P
    (by
      rcases hP with h | ⟨t, h⟩
      · exact Or.inl h
      · exact Or.inr ⟨'/', t, h, by decide⟩)
  have hfrag : splitFirst '#' P = none :=
    splitFirst_of_not_mem (fun x hx => (hPq x hx).1)
  have hquery : splitFirst '?' P = none :=
    splitFirst_of_not_mem (fun x hx => (hPq x hx).2)
  simp only [splitAfterScheme]
  rw [if_pos h2, hdrop, ht, hd, ht2, hd2, List.append_nil, hfrag, hquery]

theorem urlsplitL_reparse {S N P : List Char} (hS : GoodScheme S)
    (hN_stop : ∀ c ∈ N, netlocStop c = false)
    (hN_safe : ∀ c ∈ N, safeChar c = true)
    (hP_safe : ∀ c ∈ P, safeChar c = true)
    (hP_shape : P = [] ∨ ∃ t, P = '/' :: t)
    (hPq : ∀ c ∈ P, (c == '#') = false ∧ (c == '?') = false)
    (d : List Char) :
    urlsplitL (S ++ ':' :: '/' :: '/' :: (N ++ P)) d = ⟨S, N, P, [], []⟩ := by
  have hsafe : removeUnsafe (S ++ ':' :: '/' :: '/' :: (N ++ P)) =
      S ++ ':' :: '/' :: '/' :: (N ++ P) := by
    apply removeUnsafe_eq_self
    intro c hc
    rcases List.mem_append.mp hc with hc | hc
    · exact GoodScheme_safe hS c hc
    · rcases List.mem_cons.mp hc with hc | hc
      · rw [hc]; decide
      · rcases List.mem_cons.mp hc with hc | hc
        · rw [hc]; decide
        · rcases List.mem_cons.mp hc with hc | hc
          · rw [hc]; decide
          · rcases List.mem_append.mp hc with hc | hc
            · exact hN_safe c hc
            · exact hP_safe c hc
  simp only [urlsplitL]
  rw [hsafe, schemeSplit_good_start hS, splitAfterScheme_netloc_form hN_stop hP_shape hPq]

/-! ### Claim C4: properties of every parse result -/

theorem schemeSplit_snd_subset (l d : List Char) : (schemeSplit l d).2 ⊆ l := by
  rcases schemeSplit_cases l d with h | ⟨i, _, h⟩
  · rw [h]
    exact fun x hx => hx
  · rw [h d]
    exact (List.drop_sublist _ _).subset

theorem splitFirst_none_forall {c : Char} {l : List Char}
    (h : splitFirst c l = none) : ∀ x ∈ l, (x == c) = false := by
  induction l with
  | nil => intro x hx; exact absurd hx (List.not_mem_nil x)
  | cons y t ih =>
    rw [splitFirst] at h
    split at h
    · exact absurd h (by simp)
    · rename_i hy
      intro x hx
      rcases List.mem_cons.mp hx with hx | hx
      · rw [hx]
        exact Bool.not_eq_true _ ▸ hy
      · have ht : splitFirst c t = none := by
          cases hs : splitFirst c t with
          | none => rfl
          | some p => rw [hs] at h; simp at h
        exact ih ht x hx

theorem splitFirst_keep_mem (c0 : Char) (l : List Char) :
    ∀ x ∈ (match splitFirst c0 l with | some p => p | none => (l, ([] : List Char))).1,
      (x == c0) = false ∧ x ∈ l := by
  intro x hx
  cases hs : splitFirst c0 l with
  | none =>
    rw [hs] at hx
    exact ⟨splitFirst_none_forall hs x hx, hx⟩
  | some p =>
    rw [hs] at hx
    obtain ⟨hl, hno⟩ := splitFirst_eq_some (l := l) (by rw [hs])
    exact ⟨hno x hx, by rw [hl]; exact List.mem_append_left _ hx⟩

theorem splitAfterScheme_netloc_mem {url : List Char} {c : Char}
    (hc : c ∈ (splitAfterScheme url).1) : netlocStop c = false ∧ c ∈ url := by
  simp only [splitAfterScheme] at hc
  split at hc
  · have h1 := List.mem_takeWhile_imp hc
    have h2 : c ∈ url.drop 2 := ( List.takeWhile_prefix _).subset hc
    refine ⟨?_, (List.drop_sublist _ _).subset h2⟩
    rw [← Bool.not_eq_true]
    intro hcontra
    rw [hcontra] at h1
    exact absurd h1 (by simp)
  · exact absurd hc (List.not_mem_nil c)

theorem splitAfterScheme_rest_subset (url : List Char) :
    (if url.take 2 = ['/', '/'] then
      ((url.drop 2).takeWhile (fun c => !netlocStop c),
       (url.drop 2).dropWhile (fun c => !netlocStop c))
     else (([] : List Char), url)).2 ⊆ url := by
  split
  · exact fun x hx => (List.drop_sublist _ _).subset
      ((List.dropWhile_sublist _).subset hx)
  · exact fun x hx => hx

theorem splitAfterScheme_path_mem {url : List Char} {c : Char}
    (hc : c ∈ (splitAfterScheme url).2.1) :
    (c == '#') = false ∧ (c == '?') = false ∧ c ∈ url := by
  simp only [splitAfterScheme] at hc
  obtain ⟨hq, hc2⟩ := splitFirst_keep_mem '?' _ c hc
  obtain ⟨hh, hc3⟩ := splitFirst_keep_mem '#' _ c hc2
  exact ⟨hh, hq, splitAfterScheme_rest_subset url hc3⟩

theorem urlsplit_netloc_props (l d : List Char) :
    ∀ c ∈ (urlsplitL l d).netloc, netlocStop c = false ∧ safeChar c = true := by
  intro c hc
  have hc' : c ∈ (splitAfterScheme (schemeSplit (removeUnsafe l) (removeUnsafe d)).2).1 := hc
  obtain ⟨hstop, hmem⟩ := splitAfterScheme_netloc_mem hc'
  exact ⟨hstop, removeUnsafe_safe l c (schemeSplit_snd_subset _ _ hmem)⟩

theorem urlsplit_path_props (l d : List Char) :
    ∀ c ∈ (urlsplitL l d).path,
      (c == '#') = false ∧ (c == '?') = false ∧ safeChar c = true := by
  intro c hc
  have hc' : c ∈ (splitAfterScheme (schemeSplit (removeUnsafe l) (removeUnsafe d)).2).2.1 := hc
  obtain ⟨hh, hq, hmem⟩ := splitAfterScheme_path_mem hc'
  exact ⟨hh, hq, removeUnsafe_safe l c (schemeSplit_snd_subset _ _ hmem)⟩

/-! ### Claim C4: shape of the path after a netloc -/

theorem dropWhile_head_stop {p : Char → Bool} :
    ∀ l : List Char,
      l.dropWhile p = [] ∨ ∃ y t, l.dropWhile p = y :: t ∧ p y = false := by
  intro l
  induction l with
  | nil => exact Or.inl rfl
  | cons x t ih =>
    rw [List.dropWhile_cons]
    split
    · exact ih
    · rename_i hx
      exact Or.inr ⟨x, t, rfl, by rwa [← Bool.not_eq_true]⟩

theorem splitFirst_cons_eq (c : Char) (t : List Char) :
    splitFirst c (c :: t) = some ([], t) := by
  rw [splitFirst, if_pos (by simp)]

theorem splitFirst_keep_cons_ne {c x : Char} (t : List Char)
    (hne : (x == c) = false) :
    (match splitFirst c (x :: t) with | some p => p | none => (x :: t, ([] : List Char))).1 =
      x :: (match splitFirst c t with | some p => p | none => (t, ([] : List Char))).1 := by
  rw [splitFirst, if_neg (by rw [hne]; exact Bool.false_ne_true)]
  cases hs : splitFirst c t with
  | none => rfl
  | some p => rfl

theorem splitAfterScheme_path_shape (url : List Char)
    (h : (splitAfterScheme url).1 ≠ []) :
    (splitAfterScheme url).2.1 = [] ∨ ∃ t, (splitAfterScheme url).2.1 = '/' :: t := by
  by_cases hcond : url.take 2 = ['/', '/']
  · simp only [splitAfterScheme, hcond, if_true] at h ⊢
    rcases dropWhile_head_stop (p := fun c => !netlocStop c) (url.drop 2) with
      hD | ⟨y, t, hD, hy⟩
    · rw [hD]
      exact Or.inl rfl
    · rw [hD]
      have hy' : netlocStop y = true := by
        revert hy
        cases netlocStop y <;> simp
      rw [netlocStop_iff] at hy'
      rcases hy' with hn | hn | hn
      · have hy2 : y = '/' := char_eq_of_toNat_eq (by rw [hn]; decide)
        subst hy2
        rw [splitFirst_keep_cons_ne t (by decide),
          splitFirst_keep_cons_ne _ (by decide)]
        exact Or.inr ⟨_, rfl⟩
      · have hy2 : y = '?' := char_eq_of_toNat_eq (by rw [hn]; decide)
        subst hy2
        rw [splitFirst_keep_cons_ne t (by decide), splitFirst_cons_eq]
        exact Or.inl rfl
      · have hy2 : y = '#' := char_eq_of_toNat_eq (by rw [hn]; decide)
        subst hy2
        rw [splitFirst_cons_eq]
        exact Or.inl rfl
  · exfalso
    apply h
    simp only [splitAfterScheme, if_neg hcond]

/-! ### Claim C4: from `urlsplit` to `urlparse` -/

theorem urlsplit_path_shape (l d : List Char)
    (h : (urlsplitL l d).netloc ≠ []) :
    (urlsplitL l d).path = [] ∨ ∃ t, (urlsplitL l d).path = '/' :: t :=
  splitAfterScheme_path_shape (schemeSplit (removeUnsafe l) (removeUnsafe d)).2 h

theorem urlparseL_netloc (l d : List Char) :
    (urlparseL l d).netloc = (urlsplitL l d).netloc := by
  simp only [urlparseL]
  split <;> rfl

theorem urlparseL_scheme (l d : List Char) :
    (urlparseL l d).scheme = (urlsplitL l d).scheme := by
  simp only [urlparseL]
  split <;> rfl

theorem splitparamsL_fst (u : List Char) :
    (splitparamsL u).1 = u ∨ ∃ i, (splitparamsL u).1 = u.take i := by
  simp only [splitparamsL]
  split
  · exact Or.inl rfl
  · exact Or.inr ⟨_, rfl⟩

theorem urlparseL_path_cases (l d : List Char) :
    (urlparseL l d).path = (urlsplitL l d).path ∨
    ∃ i, (urlparseL l d).path = (urlsplitL l d).path.take i := by
  simp only [urlparseL]
  split
  · exact splitparamsL_fst _
  · exact Or.inl rfl

theorem urlparseL_path_mem {l d : List Char} {c : Char}
    (hc : c ∈ (urlparseL l d).path) : c ∈ (urlsplitL l d).path := by
  rcases urlparseL_path_cases l d with h | ⟨i, h⟩
  · rwa [h] at hc
  · rw [h] at hc
    exact (List.take_sublist _ _).subset hc

theorem take_slash_shape {P : List Char} (i : Nat)
    (h : P = [] ∨ ∃ t, P = '/' :: t) :
    P.take i = [] ∨ ∃ t, P.take i = '/' :: t := by
  rcases h with h | ⟨t, h⟩
  · subst h; simp
  · subst h
    cases i with
    | zero => exact Or.inl rfl
    | succ j => exact Or.inr ⟨t.take j, by rw [List.take_succ_cons]⟩

theorem urlparseL_path_shape (l d : List Char)
    (h : (urlparseL l d).netloc ≠ []) :
    (urlparseL l d).path = [] ∨ ∃ t, (urlparseL l d).path = '/' :: t := by
  rw [urlparseL_netloc] at h
  rcases urlparseL_path_cases l d with hp | ⟨i, hp⟩ <;> rw [hp]
  · exact urlsplit_path_shape l d h
  · exact take_slash_shape i (urlsplit_path_shape l d h)

theorem urlsplitL_congr_dflt {l : List Char} {d d' : List Char} {s r : List Char}
    (h : ∀ x, schemeSplit (removeUnsafe l) x = (s, r)) :
    urlsplitL l d' = urlsplitL l d := by
  simp only [urlsplitL]
  rw [h (removeUnsafe d), h (removeUnsafe d')]

theorem urlparseL_dflt_cases (l d : List Char) :
    (urlparseL l d).scheme = removeUnsafe d ∨
    (GoodScheme (urlparseL l d).scheme ∧ urlparseL l [] = urlparseL l d) := by
  rcases schemeSplit_cases (removeUnsafe l) (removeUnsafe d) with h | ⟨i, hg, hall⟩
  · left
    rw [urlparseL_scheme]
    show (schemeSplit (removeUnsafe l) (removeUnsafe d)).1 = removeUnsafe d
    rw [h]
  · right
    have hs : (urlsplitL l d).scheme = lowerL ((removeUnsafe l).take i) := by
      show (schemeSplit (removeUnsafe l) (removeUnsafe d)).1 = _
      rw [hall (removeUnsafe d)]
    constructor
    · rw [urlparseL_scheme, hs]
      exact hg
    · have : urlsplitL l [] = urlsplitL l d :=
        urlsplitL_congr_dflt (fun x => hall x)
      unfold urlparseL
      rw [this]

/-! ### Claim C4: the scheme of a joined URL -/

theorem colon_prefix_append (s X Y : List Char) :
    ∃ R, (s ++ ':' :: X) ++ Y = s ++ ':' :: R :=
  ⟨X ++ Y, by simp⟩

theorem colon_prefix_append2 (s X Y Z : List Char) :
    ∃ R, ((s ++ ':' :: X) ++ Y) ++ Z = s ++ ':' :: R :=
  ⟨(X ++ Y) ++ Z, by simp⟩

theorem urlunsplitL_scheme_start (s n u q f : List Char) (hs : s ≠ []) :
    ∃ R, urlunsplitL s n u q f = s ++ ':' :: R := by
  simp only [urlunsplitL]
  rw [if_pos hs]
  split
  · split
    · exact colon_prefix_append2 s _ _ _
    · exact colon_prefix_append s _ _
  · split
    · exact colon_prefix_append s _ _
    · exact ⟨_, rfl⟩

theorem removeUnsafe_good_start {S : List Char} (hS : GoodScheme S) (R : List Char) :
    removeUnsafe (S ++ ':' :: R) = S ++ ':' :: removeUnsafe R := by
  unfold removeUnsafe
  rw [List.filter_append, List.filter_eq_self.mpr (GoodScheme_safe hS),
    List.filter_cons_of_pos (by decide)]

theorem parse_scheme_of_start {S : List Char} (hS : GoodScheme S) (R : List Char) :
    (urlparseL (S ++ ':' :: R) []).scheme = S := by
  rw [urlparseL_scheme]
  show (schemeSplit (removeUnsafe (S ++ ':' :: R)) (removeUnsafe [])).1 = S
  rw [removeUnsafe_good_start hS, schemeSplit_good_start hS]

theorem parse_unparse_scheme {S n u prm q f : List Char} (hS : GoodScheme S) :
    (urlparseL (urlunparseL ⟨S, n, u, prm, q, f⟩) []).scheme = S := by
  unfold urlunparseL
  obtain ⟨R, hR⟩ := urlunsplitL_scheme_start S n
    (if prm ≠ [] then u ++ ';' :: prm else u) q f hS.1
  rw [hR, parse_scheme_of_start hS]

theorem origin_parse {bs bn : List Char} (hgb : GoodScheme bs)
    (hbn_stop : ∀ c ∈ bn, netlocStop c = false)
    (hbn_safe : ∀ c ∈ bn, safeChar c = true) :
    urlparseL (bs ++ ':' :: '/' :: '/' :: bn) [] = ⟨bs, bn, [], [], [], []⟩ := by
  have hsplit : urlsplitL (bs ++ ':' :: '/' :: '/' :: bn) [] = ⟨bs, bn, [], [], []⟩ := by
    have h := urlsplitL_reparse (P := []) hgb hbn_stop hbn_safe
      (by intro c hc; exact absurd hc (List.not_mem_nil c)) (Or.inl rfl)
      (by intro c hc; exact absurd hc (List.not_mem_nil c)) []
    simpa using h
  unfold urlparseL
  rw [hsplit]
  rw [if_neg (by simp)]

theorem urljoinL_cases (base hs : List Char) (hbase : base ≠ []) (hhs : hs ≠ []) :
    (urljoinL base hs = hs ∧
      ((urlparseL hs (urlparseL base []).scheme).scheme ≠ (urlparseL base []).scheme ∨
       (urlparseL hs (urlparseL base []).scheme).scheme ∉ uses_relative)) ∨
    ∃ n u prm q f, urljoinL base hs =
      urlunparseL ⟨(urlparseL hs (urlparseL base []).scheme).scheme, n, u, prm, q, f⟩ := by
  simp only [urljoinL]
  rw [if_neg hbase, if_neg hhs]
  split
  · rename_i hcond
    exact Or.inl ⟨rfl, hcond⟩
  · split
    · exact Or.inr ⟨_, _, _, _, _, rfl⟩
    · split
      · exact Or.inr ⟨_, _, _, _, _, rfl⟩
      · exact Or.inr ⟨_, _, _, _, _, rfl⟩

theorem urljoin_parse_scheme_good {bs bn : List Char} (hgb : GoodScheme bs)
    (hrel : bs ∈ uses_relative)
    (hbn_stop : ∀ c ∈ bn, netlocStop c = false)
    (hbn_safe : ∀ c ∈ bn, safeChar c = true)
    (hs : List Char) (hhs : hs ≠ []) :
    GoodScheme ((urlparseL (urljoinL (bs ++ ':' :: '/' :: '/' :: bn) hs) []).scheme) := by
  have horigin := origin_parse hgb hbn_stop hbn_safe
  have hbase : bs ++ ':' :: '/' :: '/' :: bn ≠ [] := by simp
  rcases urljoinL_cases (bs ++ ':' :: '/' :: '/' :: bn) hs hbase hhs with
    ⟨hfull, hcond⟩ | ⟨n, u, prm, q, f, hfull⟩
  · rw [hfull]
    rw [horigin] at hcond
    have hcond2 : (urlparseL hs bs).scheme ≠ bs ∨
        (urlparseL hs bs).scheme ∉ uses_relative := hcond
    rcases urlparseL_dflt_cases hs bs with hds | ⟨hgood, heq⟩
    · rw [removeUnsafe_eq_self (GoodScheme_safe hgb)] at hds
      rcases hcond2 with hc | hc
      · exact absurd hds hc
      · rw [hds] at hc
        exact absurd hrel hc
    · rw [heq]
      exact hgood
  · rw [hfull, horigin]
    show GoodScheme
      ((urlparseL (urlunparseL ⟨(urlparseL hs bs).scheme, n, u, prm, q, f⟩) []).scheme)
    rcases urlparseL_dflt_cases hs bs with hds | ⟨hgood, _⟩
    · rw [removeUnsafe_eq_self (GoodScheme_safe hgb)] at hds
      rw [hds, parse_unparse_scheme hgb]
      exact hgb
    · rw [parse_unparse_scheme hgood]
      exact hgood

/-! ### Claim C4: inverting a kept candidate -/

theorem rawCandidate_inv {base_url href : String} {raw : List Char}
    (h : rawCandidate base_url href = some raw) :
    pyStripL href.data ≠ [] ∧
    ∃ p : ParseUrl,
      p = urlparseL (urljoinL
        ((urlparseL base_url.data []).scheme ++ ':' :: '/' :: '/' ::
          (urlparseL base_url.data []).netloc) (pyStripL href.data)) [] ∧
      p.netloc = (urlparseL base_url.data []).netloc ∧
      raw = p.scheme ++ ':' :: '/' :: '/' :: (p.netloc ++ p.path) := by
  simp only [rawCandidate] at h
  split at h
  · exact absurd h (by simp)
  · split at h
    · exact absurd h (by simp)
    · split at h
      · exact absurd h (by simp)
      · split at h
        · rename_i hne hhash hpre hfilter
          simp only [Option.some_inj] at h
          exact ⟨hne, _, rfl, hfilter, h.symm⟩
        · exact absurd h (by simp)

theorem candidateLink_inv {base_url href u : String}
    (h : candidateLink base_url href = some u) :
    ∃ raw, rawCandidate base_url href = some raw ∧ u.data = stripSlash raw := by
  unfold candidateLink at h
  cases hr : rawCandidate base_url href with
  | none => rw [hr] at h; exact absurd h (by simp)
  | some raw =>
    rw [hr, Option.map_some', Option.some_inj] at h
    exact ⟨raw, rfl, by rw [← h]⟩

theorem extract_mem_candidate {hrefs : List String} {base_url u : String}
    (hu : u ∈ extract_internal_links hrefs base_url) :
    ∃ h ∈ hrefs, candidateLink base_url h = some u := by
  unfold extract_internal_links at hu
  rw [(List.perm_insertionSort strLe _).mem_iff, mem_dedupList] at hu
  exact List.mem_filterMap.mp hu

theorem dropLast_append_right {l₁ l₂ : List Char} (h : l₂ ≠ []) :
    (l₁ ++ l₂).dropLast = l₁ ++ l₂.dropLast := by
  rw [List.dropLast_append, if_neg]
  rw [List.isEmpty_iff]
  simp [h]

theorem dropLast_cons_of_ne {x : Char} {l : List Char} (h : l ≠ []) :
    (x :: l).dropLast = x :: l.dropLast := by
  have : x :: l = [x] ++ l := rfl
  rw [this, dropLast_append_right h]
  rfl

/-! ### Claim C4: the canonical string re-parses to the same host -/

theorem beq_false_toNat_ne {c d : Char} (h : (c == d) = false) :
    c.toNat ≠ d.toNat := by
  intro he
  rw [char_eq_of_toNat_eq he] at h
  simp at h

theorem stripSlash_subset (l : List Char) : stripSlash l ⊆ l := by
  unfold stripSlash
  split
  · exact (List.dropLast_sublist l).subset
  · exact fun _ h => h

theorem clean_chars {S N P : List Char} (hS : GoodScheme S)
    (hN_stop : ∀ c ∈ N, netlocStop c = false)
    (hP_props : ∀ c ∈ P, (c == '#') = false ∧ (c == '?') = false ∧ safeChar c = true) :
    ∀ c ∈ S ++ ':' :: '/' :: '/' :: (N ++ P), c.toNat ≠ 63 ∧ c.toNat ≠ 35 := by
  intro c hc
  rcases List.mem_append.mp hc with hc | hc
  · have := (isSchemeChar_iff c).mp (hS.2.2.1 c hc)
    omega
  · rcases List.mem_cons.mp hc with rfl | hc
    · decide
    · rcases List.mem_cons.mp hc with rfl | hc
      · decide
      · rcases List.mem_cons.mp hc with rfl | hc
        · decide
        · rcases List.mem_append.mp hc with hc | hc
          · have := (netlocStop_eq_false_iff c).mp (hN_stop c hc)
            omega
          · obtain ⟨h1, h2, _⟩ := hP_props c hc
            exact ⟨beq_false_toNat_ne h2, beq_false_toNat_ne h1⟩

theorem reparse_clean_netloc {S N P : List Char} (hS : GoodScheme S)
    (hN_stop : ∀ c ∈ N, netlocStop c = false)
    (hN_safe : ∀ c ∈ N, safeChar c = true)
    (hN_ne : N ≠ [])
    (hP_props : ∀ c ∈ P, (c == '#') = false ∧ (c == '?') = false ∧ safeChar c = true)
    (hP_shape : P = [] ∨ ∃ t, P = '/' :: t) :
    (urlparseL (stripSlash (S ++ ':' :: '/' :: '/' :: (N ++ P))) []).netloc = N := by
  have hsplit : ∀ P' : List Char,
      (∀ c ∈ P', safeChar c = true) →
      (P' = [] ∨ ∃ t, P' = '/' :: t) →
      (∀ c ∈ P', (c == '#') = false ∧ (c == '?') = false) →
      (urlparseL (S ++ ':' :: '/' :: '/' :: (N ++ P')) []).netloc = N := by
    intro P' h1 h2 h3
    rw [urlparseL_netloc, urlsplitL_reparse hS hN_stop hN_safe h1 h2 h3 []]
  unfold stripSlash
  split
  · rename_i hlast
    rcases hP_shape with rfl | ⟨t, rfl⟩
    · exfalso
      rw [List.append_nil] at hlast
      obtain ⟨y, hy⟩ := Option.isSome_iff_exists.mp (List.getLast?_isSome.mpr hN_ne)
      have hre : S ++ ':' :: '/' :: '/' :: N = (S ++ [':', '/', '/']) ++ N := by simp
      rw [hre, List.getLast?_append, hy] at hlast
      simp only [Option.or, Option.some_inj] at hlast
      have hmem : y ∈ N := List.mem_of_mem_getLast? hy
      have := hN_stop y hmem
      rw [hlast] at this
      exact absurd this (by decide)
    · have hPne : ('/' :: t : List Char) ≠ [] := by simp
      have hdrop : (S ++ ':' :: '/' :: '/' :: (N ++ '/' :: t)).dropLast =
          S ++ ':' :: '/' :: '/' :: (N ++ ('/' :: t).dropLast) := by
        rw [dropLast_append_right (by simp : (':' :: '/' :: '/' :: (N ++ '/' :: t) : List Char) ≠ []),
          dropLast_cons_of_ne (by simp), dropLast_cons_of_ne (by simp),
          dropLast_cons_of_ne (by simp), dropLast_append_right hPne]
      rw [hdrop]
      apply hsplit
      · intro c hc
        exact (hP_props c ((List.dropLast_sublist _).subset hc)).2.2
      · cases t with
        | nil => exact Or.inl rfl
        | cons a b =>
          exact Or.inr ⟨(a :: b).dropLast, dropLast_cons_of_ne (by simp)⟩
      · intro c hc
        obtain ⟨h1, h2, _⟩ := hP_props c ((List.dropLast_sublist _).subset hc)
        exact ⟨h1, h2⟩
  · exact hsplit P (fun c hc => (hP_props c hc).2.2) hP_shape
      (fun c hc => ⟨(hP_props c hc).1, (hP_props c hc).2.1⟩)

/-! ### Claim C4: counterexample, amended theorem, witness -/

/-- C4 counterexample: the claim's "no trailing slash" and "host equals
base host" parts fail as stated.  Href `"/a//"` on base
`https://host` yields `https://host/a/` (one trailing slash survives,
because the code strips only a single `/`), and on the scheme-less base
`//host/x` the returned string `://host/x` re-parses with an empty
host although the base host is `host`. -/
theorem c4_counterexample :
    (extract_internal_links ["/a//"] "https://host" = ["https://host/a/"] ∧
      "https://host/a/".data.getLast? = some '/') ∧
    (extract_internal_links ["//host/x"] "//host/x" = ["://host/x"] ∧
      (urlparseL "://host/x".data []).netloc ≠
        (urlparseL "//host/x".data []).netloc ∧
      (urlparseL "//host/x".data []).netloc ≠ []) := by decide

/-- C4 amended: when the base URL parses with scheme `http` or `https`
and a non-empty host, every URL returned by the link extractor re-parses
to exactly the base host and contains no query and no fragment; the
canonicalization strips a single trailing slash, so a returned URL ends
with `/` only when its pre-strip canonical form ended with `//` (it is
then that form minus one slash). -/
theorem c4_same_origin_canonical (hrefs : List String) (base_url : String)
    (hscheme : (urlparseL base_url.data []).scheme = "http".data ∨
               (urlparseL base_url.data []).scheme = "https".data)
    (hhost : (urlparseL base_url.data []).netloc ≠ []) :
    ∀ u ∈ extract_internal_links hrefs base_url,
      (urlparseL u.data []).netloc = (urlparseL base_url.data []).netloc ∧
      '?' ∉ u.data ∧ '#' ∉ u.data ∧
      (u.data.getLast? = some '/' →
        ∃ h ∈ hrefs, rawCandidate base_url h = some (u.data ++ ['/'])) := by
  intro u hu
  obtain ⟨href, hhref, hcand⟩ := extract_mem_candidate hu
  obtain ⟨raw, hraw, hstrip⟩ := candidateLink_inv hcand
  obtain ⟨hne, p, hp, hfilter, hrawEq⟩ := rawCandidate_inv hraw
  have hgb : GoodScheme (urlparseL base_url.data []).scheme := by
    rcases hscheme with h | h <;> rw [h] <;> decide
  have hrel : (urlparseL base_url.data []).scheme ∈ uses_relative := by
    rcases hscheme with h | h <;> rw [h] <;> decide
  have hbnP : ∀ c ∈ (urlparseL base_url.data []).netloc,
      netlocStop c = false ∧ safeChar c = true := by
    intro c hc
    rw [urlparseL_netloc] at hc
    exact urlsplit_netloc_props base_url.data [] c hc
  have hpScheme : GoodScheme p.scheme := by
    rw [hp]
    exact urljoin_parse_scheme_good hgb hrel (fun c hc => (hbnP c hc).1)
      (fun c hc => (hbnP c hc).2) (pyStripL href.data) hne
  have hpNetNe : p.netloc ≠ [] := by
    rw [hfilter]
    exact hhost
  have hpNetP : ∀ c ∈ p.netloc, netlocStop c = false ∧ safeChar c = true := by
    rw [hfilter]
    exact hbnP
  have hpPathP : ∀ c ∈ p.path,
      (c == '#') = false ∧ (c == '?') = false ∧ safeChar c = true := by
    intro c hc
    rw [hp] at hc
    exact urlsplit_path_props _ _ c (urlparseL_path_mem hc)
  have hpShape : p.path = [] ∨ ∃ t, p.path = '/' :: t := by
    rw [hp]
    apply urlparseL_path_shape
    rw [← hp]
    exact hpNetNe
  have ha : (urlparseL u.data []).netloc = p.netloc := by
    rw [hstrip, hrawEq]
    exact reparse_clean_netloc hpScheme (fun c hc => (hpNetP c hc).1)
      (fun c hc => (hpNetP c hc).2) hpNetNe hpPathP hpShape
  have hsub : u.data ⊆ raw := by
    rw [hstrip]
    exact stripSlash_subset raw
  refine ⟨by rw [ha, hfilter], ?_, ?_, ?_⟩
  · intro hq
    have hch := clean_chars hpScheme (fun c hc => (hpNetP c hc).1) hpPathP
      '?' (by rw [← hrawEq]; exact hsub hq)
    exact hch.1 (by decide)
  · intro hq
    have hch := clean_chars hpScheme (fun c hc => (hpNetP c hc).1) hpPathP
      '#' (by rw [← hrawEq]; exact hsub hq)
    exact hch.2 (by decide)
  · intro hlast
    refine ⟨href, hhref, ?_⟩
    rw [hraw]
    rw [hstrip] at hlast ⊢
    unfold stripSlash at hlast ⊢
    by_cases hC : raw.getLast? = some '/'
    · rw [if_pos hC]
      have hrne : raw ≠ [] := by
        intro hcontra
        rw [hcontra] at hC
        simp at hC
      have hgl : raw.getLast hrne = '/' := by
        have h2 := List.getLast?_eq_getLast raw hrne
        rw [h2] at hC
        exact Option.some_inj.mp hC
      have h3 := List.dropLast_append_getLast hrne
      rw [hgl] at h3
      rw [h3]
    · rw [if_neg hC] at hlast
      exact absurd hlast hC

/-- Witness for the amended C4 at a concrete base URL and href list. -/
theorem c4_same_origin_canonical_witness :
    (urlparseL "https://host/about".data []).netloc =
      (urlparseL "https://host".data []).netloc ∧
    '?' ∉ "https://host/about".data ∧ '#' ∉ "https://host/about".data ∧
    ("https://host/about".data.getLast? = some '/' →
      ∃ h ∈ ["/about/"], rawCandidate "https://host" h =
        some ("https://host/about".data ++ ['/'])) :=
  c4_same_origin_canonical ["/about/"] "https://host" (by decide) (by decide)
    "https://host/about" (by decide)

end QARadar
